import Mathlib

/-!
Verification of the first-fit hole-list heap allocator (`src/hole.rs`,
`src/heap_allocator.rs`) of the `os_rust` repository.

The hole list is modelled as the list of real holes (address, size) in list
order; the sentinel head (a dummy hole of size 0) is passed explicitly to the
deallocation walk, as in the source.  Machine integers (`usize`, 64-bit) are
modelled as `Nat`; a subtraction that the source performs on `usize` is
modelled by `wrapSub`, which wraps modulo `2 ^ 64` exactly as a release-mode
Rust build does.  Additions are modelled as plain `Nat` additions; the
theorems carry the bounds (addresses and sizes below `2 ^ 63`, the Rust
object-size limit) under which no `usize` addition in the source can overflow.
A panic (a failed `assert!`, a panicking `unwrap`) is modelled as `none`
(or the `fatal` outcome).
-/

namespace OsRust

/-- `HoleList::min_size()`: two machine words on the 64-bit target. -/
def min_size : Nat := 16

/-- 64-bit wrapping subtraction: `a - b` on `usize` for `a, b < 2 ^ 64`. -/
def wrapSub (a b : Nat) : Nat := (a + (2 ^ 64 - b % 2 ^ 64)) % 2 ^ 64

/-- Rust `usize::is_power_of_two` (defined there as `count_ones() == 1`;
the equivalent bit test is used here). -/
def is_power_of_two (n : Nat) : Bool := n != 0 && n &&& (n - 1) == 0

/-- `align_down` from `hole.rs`: mask for a power-of-two `align`, identity for
`align == 0`, and a panic (modelled as `none`) otherwise.  The mask
`!(align - 1)` on 64-bit is `2 ^ 64 - align`. -/
def align_down (addr align : Nat) : Option Nat :=
  if is_power_of_two align then some (addr &&& (2 ^ 64 - align))
  else if align = 0 then some addr
  else none

/-- `align_up` from `hole.rs`: `align_down (addr + align - 1) align`, where the
`usize` computation `addr + align - 1` wraps modulo `2 ^ 64` (it underflows
for `addr = 0, align = 0`). -/
def align_up (addr align : Nat) : Option Nat :=
  align_down ((addr + align + (2 ^ 64 - 1)) % 2 ^ 64) align

/-- `alloc::alloc::Layout`: a size and an alignment. -/
structure Layout where
  size : Nat
  align : Nat
deriving DecidableEq, Repr

/-- `Layout::from_size_align`: requires a power-of-two alignment and
`size <= usize::MAX - (align - 1)`, i.e. `size <= 2 ^ 64 - align`. -/
def Layout.from_size_align (size align : Nat) : Option Layout :=
  if is_power_of_two align = false then none
  else if 2 ^ 64 - align < size then none
  else some ⟨size, align⟩

/-- `HoleInfo` from `hole.rs`: address and size of a hole. -/
structure HoleInfo where
  addr : Nat
  size : Nat
deriving DecidableEq, Repr

/-- `AllocInfo` from `hole.rs`: the allocation produced by splitting a hole,
with the optional front and back padding holes. -/
structure AllocInfo where
  allocated_info : HoleInfo
  front_hole_info : Option HoleInfo
  back_hole_info : Option HoleInfo
deriving DecidableEq, Repr

/-- `split_hole` from `hole.rs`.  A Rust `Layout` always carries a
power-of-two alignment, for which `align_up` cannot panic; the unreachable
panic branches are mapped to `none` like the no-fit case. -/
def split_hole (hole : HoleInfo) (layout : Layout) : Option AllocInfo :=
  if layout.size > hole.size then none
  else
    match align_up hole.addr layout.align with
    | none => none
    | some hole_addr_aligned =>
      match (if hole.addr = hole_addr_aligned then
               some (hole.addr, (none : Option HoleInfo))
             else
               match align_up (hole.addr + min_size) layout.align with
               | none => none
               | some aligned => some (aligned, some ⟨hole.addr, wrapSub aligned hole.addr⟩)) with
      | none => none
      | some (aligned_addr, front_hole) =>
        if wrapSub aligned_addr hole.addr > wrapSub hole.size layout.size then none
        else
          some { allocated_info := ⟨aligned_addr, layout.size⟩
                 front_hole_info := front_hole
                 back_hole_info :=
                   if wrapSub (wrapSub hole.size (wrapSub aligned_addr hole.addr)) layout.size
                        < min_size then
                     none
                   else
                     some ⟨aligned_addr + layout.size,
                           wrapSub (wrapSub hole.size (wrapSub aligned_addr hole.addr)) layout.size⟩ }

/-- `allocate_first_fit` from `hole.rs`: walk the list, unlink the first hole
whose split succeeds; `none` models `Err(AllocErr)`. -/
def allocate_first_fit (holes : List HoleInfo) (layout : Layout) :
    Option (AllocInfo × List HoleInfo) :=
  match holes with
  | [] => none
  | current :: rest =>
    match split_hole current layout with
    | some alloc_info => some (alloc_info, rest)
    | none => (allocate_first_fit rest layout).map fun p => (p.1, current :: p.2)

/-- `deallocate` from `hole.rs`.  The walking pointer is the pair of the
current hole and the list of holes after it; the top-level call passes the
sentinel head `⟨0, 0⟩` (the source computes `hole_addr = 0` for it).  A failed
`assert!` is `none`.  The source's `continue` branches are the two recursive
calls (merge-with-successor keeps the current hole and grows the freed size;
overshoot advances to the next hole). -/
def deallocate (hole : HoleInfo) (rest : List HoleInfo) (addr size : Nat) :
    Option (HoleInfo × List HoleInfo) :=
  if size < min_size then none
  else if (if hole.size = 0 then 0 else hole.addr) ≤ wrapSub addr hole.size then
    match rest with
    | [] =>
      if (if hole.size = 0 then 0 else hole.addr) + hole.size = addr then
        some (⟨hole.addr, hole.size + size⟩, [])
      else
        some (hole, [(⟨addr, size⟩ : HoleInfo)])
    | next :: rest' =>
      if (if hole.size = 0 then 0 else hole.addr) + hole.size = addr ∧
          addr + size = next.addr then
        some (⟨hole.addr, hole.size + (size + next.size)⟩, rest')
      else if (if hole.size = 0 then 0 else hole.addr) + hole.size = addr then
        some (⟨hole.addr, hole.size + size⟩, next :: rest')
      else if addr = wrapSub next.addr size then
        deallocate hole rest' addr (size + next.size)
      else if next.addr ≤ addr then
        (deallocate next rest' addr size).map fun p => (hole, p.1 :: p.2)
      else
        some (hole, ⟨addr, size⟩ :: next :: rest')
  else none

/-- `HoleList::deallocate`: start the walk at the sentinel.  For `addr ≠ 0`
the sentinel is returned unchanged (`deallocate_sentinel` below), so only the
list of real holes is kept. -/
def HoleList.deallocate (holes : List HoleInfo) (addr : Nat) (layout : Layout) :
    Option (List HoleInfo) :=
  (OsRust.deallocate ⟨0, 0⟩ holes addr layout.size).map fun p => p.2

/-- Reinsertion of an optional padding hole inside `HoleList::alloc`
(`deallocate(&mut self.head, info.addr, info.size)`). -/
def free_info (holes : List HoleInfo) (info : Option HoleInfo) : Option (List HoleInfo) :=
  match info with
  | none => some holes
  | some f => (deallocate ⟨0, 0⟩ holes f.addr f.size).map fun p => p.2

/-- Outcome of `HoleList::alloc`: success with the returned address and the
new hole list, `Err(AllocErr)` (out of memory), or a panic. -/
inductive AllocResult where
  | ok (addr : Nat) (holes : List HoleInfo) : AllocResult
  | oom : AllocResult
  | fatal : AllocResult
deriving DecidableEq, Repr

/-- `HoleList::alloc`: assert the minimum size, search first-fit, reinsert the
front and back padding, and return the address (`NonNull::new(...).unwrap()`
panics on a null address). -/
def HoleList.alloc (holes : List HoleInfo) (layout : Layout) : AllocResult :=
  if layout.size < min_size then .fatal
  else
    match allocate_first_fit holes layout with
    | none => .oom
    | some (allocation, holes1) =>
      match free_info holes1 allocation.front_hole_info with
      | none => .fatal
      | some holes2 =>
        match free_info holes2 allocation.back_hole_info with
        | none => .fatal
        | some holes3 =>
          if allocation.allocated_info.addr = 0 then .fatal
          else .ok allocation.allocated_info.addr holes3

/-- `HoleList::new`: one hole covering the whole region. -/
def HoleList.new (hole_addr hole_size : Nat) : List HoleInfo :=
  [⟨hole_addr, hole_size⟩]

/-- `HeapAllocator` from `heap_allocator.rs`. -/
structure Heap where
  bottom : Nat
  size : Nat
  holes : List HoleInfo
deriving DecidableEq, Repr

/-- `HeapAllocator::empty`. -/
def HeapAllocator.empty : Heap := ⟨0, 0, []⟩

/-- `HeapAllocator::init`: unconditionally overwrites `bottom`, `size` and the
hole list; the previous state (`heap`) is not inspected. -/
def HeapAllocator.init (heap : Heap) (heap_bottom heap_size : Nat) : Heap :=
  { bottom := heap_bottom, size := heap_size, holes := HoleList.new heap_bottom heap_size }

/-- Outcome of `HeapAllocator::alloc` (`&mut self` is modelled by returning
the heap: unchanged in the `oom` case, since the failing search mutates
nothing in the source). -/
inductive HeapAllocResult where
  | ok (addr : Nat) (heap : Heap) : HeapAllocResult
  | oom (heap : Heap) : HeapAllocResult
  | fatal : HeapAllocResult
deriving DecidableEq, Repr

/-- `HeapAllocator::alloc`: round the size up to `min_size`, rebuild the
layout (`Layout::from_size_align(..).unwrap()`), delegate to the hole list. -/
def HeapAllocator.alloc (heap : Heap) (layout : Layout) : HeapAllocResult :=
  match Layout.from_size_align
      (if layout.size < min_size then min_size else layout.size) layout.align with
  | none => .fatal
  | some layout2 =>
    match HoleList.alloc heap.holes layout2 with
    | .ok addr holes' => .ok addr { heap with holes := holes' }
    | .oom => .oom heap
    | .fatal => .fatal

/-- `HeapAllocator::dealloc`: the same size normalization, then
`HoleList::deallocate`; `none` is a panic. -/
def HeapAllocator.dealloc (heap : Heap) (addr : Nat) (layout : Layout) : Option Heap :=
  match Layout.from_size_align
      (if layout.size < min_size then min_size else layout.size) layout.align with
  | none => none
  | some layout2 =>
    (HoleList.deallocate heap.holes addr layout2).map fun hs => { heap with holes := hs }

/-- The layout normalization performed by the heap facade. -/
def normLayout (l : Layout) : Layout :=
  if l.size < min_size then ⟨min_size, l.align⟩ else l

/-! ### Specification-side predicates -/

/-- The ordering-and-coalescing invariant relation between consecutive holes:
hole `a` ends strictly below the start of hole `b` (spec invariant I3). -/
def holeRel (a b : HoleInfo) : Prop := a.addr + a.size < b.addr

instance : DecidableRel holeRel := fun a b => inferInstanceAs (Decidable (_ < _))

instance : IsTrans HoleInfo holeRel := by
  constructor
  intro a b c hab hbc
  simp only [holeRel] at *
  omega

/-- A well-formed real hole: nonzero address, at least the minimum block size,
and contained in the addressable range (Rust bounds allocations by
`isize::MAX = 2 ^ 63 - 1`, so `2 ^ 63` bounds every end address). -/
def realHole (h : HoleInfo) : Prop :=
  0 < h.addr ∧ min_size ≤ h.size ∧ h.addr + h.size ≤ 2 ^ 63

instance : DecidablePred realHole := fun _ => inferInstanceAs (Decidable (_ ∧ _ ∧ _))

/-- `x` is one of the bytes covered by hole `h`. -/
def inHole (x : Nat) (h : HoleInfo) : Prop := h.addr ≤ x ∧ x < h.addr + h.size

/-- `x` is covered by the current hole or by one of the holes after it. -/
def inFree (x : Nat) (h : HoleInfo) (rest : List HoleInfo) : Prop :=
  inHole x h ∨ ∃ r ∈ rest, inHole x r

/-- A well-formed hole-list state: consecutive holes are ordered and
non-touching, and every hole is a real hole. -/
def goodHoles (l : List HoleInfo) : Prop :=
  List.Chain' holeRel l ∧ ∀ h ∈ l, realHole h

/-- A layout as every caller of the hole list produces it: power-of-two
alignment (`k < 64` on the 64-bit target), normalized size, size within the
Rust object-size bound. -/
def validLayout (l : Layout) : Prop :=
  (∃ k < 64, l.align = 2 ^ k) ∧ min_size ≤ l.size ∧ l.size ≤ 2 ^ 63

/-! ### Arithmetic helper lemmas -/

theorem wrapSub_of_le {a b : Nat} (h : b ≤ a) (ha : a < 2 ^ 64) : wrapSub a b = a - b := by
  have hb : b < 2 ^ 64 := Nat.lt_of_le_of_lt h ha
  unfold wrapSub
  rw [Nat.mod_eq_of_lt hb]
  have h1 : a + (2 ^ 64 - b) = (a - b) + 2 ^ 64 := by omega
  rw [h1, Nat.add_mod_right, Nat.mod_eq_of_lt (by omega)]

theorem wrapSub_of_lt {a b : Nat} (h : a < b) (hb : b < 2 ^ 64) : wrapSub a b = a + (2 ^ 64 - b) := by
  unfold wrapSub
  rw [Nat.mod_eq_of_lt hb, Nat.mod_eq_of_lt (by omega)]

theorem wrapSub_zero {a : Nat} (ha : a < 2 ^ 64) : wrapSub a 0 = a := by
  rw [wrapSub_of_le (Nat.zero_le a) ha]
  omega

/-- The 64-bit mask `!(align - 1)` clears the low `k` bits: for `x < 2 ^ 64`,
`x &&& (2 ^ 64 - 2 ^ k)` is `x` rounded down to a multiple of `2 ^ k`. -/
theorem land_mask_eq (x k : Nat) (hx : x < 2 ^ 64) (hk : k ≤ 64) :
    x &&& (2 ^ 64 - 2 ^ k) = x - x % 2 ^ k := by
  have hmask : 2 ^ 64 - 2 ^ k = 2 ^ k * (2 ^ (64 - k) - 1) + 0 := by
    rw [Nat.mul_sub, Nat.mul_one, ← pow_add, Nat.add_zero]
    congr 2
    omega
  have hrw : x - x % 2 ^ k = 2 ^ k * (x / 2 ^ k) + 0 := by
    have := Nat.mod_add_div x (2 ^ k)
    omega
  apply Nat.eq_of_testBit_eq
  intro i
  rw [Nat.testBit_land, hmask, hrw,
    Nat.testBit_mul_pow_two_add _ (Nat.pos_pow_of_pos k (by norm_num)) i,
    Nat.testBit_mul_pow_two_add _ (Nat.pos_pow_of_pos k (by norm_num)) i]
  rcases lt_or_ge i k with hik | hik
  · simp [hik, Nat.zero_testBit]
  · have hif : ¬ i < k := by omega
    simp only [if_neg hif, Nat.zero_testBit]
    have hdiv : (x / 2 ^ k).testBit (i - k) = x.testBit i := by
      rw [← Nat.shiftRight_eq_div_pow, Nat.testBit_shiftRight]
      congr 1
      omega
    rw [hdiv]
    rcases lt_or_ge i 64 with hi64 | hi64
    · have : (2 ^ (64 - k) - 1).testBit (i - k) = true := by
        rw [Nat.testBit_two_pow_sub_one]
        simp only [decide_eq_true_eq]
        omega
      simp [this]
    · have hxlt : x < 2 ^ i := Nat.lt_of_lt_of_le hx (Nat.pow_le_pow_right (by norm_num) hi64)
      simp [Nat.testBit_lt_two_pow hxlt]

theorem is_power_of_two_two_pow (k : Nat) : is_power_of_two (2 ^ k) = true := by
  have h1 : 2 ^ k ≠ 0 := (Nat.pos_pow_of_pos k (by norm_num)).ne'
  have h2 : 2 ^ k &&& (2 ^ k - 1) = 0 := by
    rw [Nat.and_pow_two_sub_one_eq_mod, Nat.mod_self]
  simp [is_power_of_two, h1, h2]

theorem is_power_of_two_eq_true {n : Nat} (h : is_power_of_two n = true) : ∃ k, n = 2 ^ k := by
  unfold is_power_of_two at h
  simp only [Bool.and_eq_true, bne_iff_ne, ne_eq, beq_iff_eq] at h
  obtain ⟨hne, hand⟩ := h
  refine ⟨Nat.log2 n, ?_⟩
  have hpos : 0 < n := Nat.pos_of_ne_zero hne
  have hle : 2 ^ Nat.log2 n ≤ n := Nat.log2_self_le hne
  have hlt : n < 2 ^ (Nat.log2 n + 1) := Nat.lt_log2_self
  by_contra hne2
  -- n = 2 ^ k + r with 0 < r < 2 ^ k; then bit k is set in both n and n - 1
  set k := Nat.log2 n with hk
  have hr : 0 < n - 2 ^ k := by omega
  have hb1 : n.testBit k = true := by
    rw [Nat.testBit_to_div_mod]
    have : n / 2 ^ k = 1 := by
      rw [pow_succ] at hlt
      exact Nat.div_eq_of_lt_le (by omega) (by omega)
    simp [this]
  have hb2 : (n - 1).testBit k = true := by
    rw [Nat.testBit_to_div_mod]
    have : (n - 1) / 2 ^ k = 1 := by
      rw [pow_succ] at hlt
      exact Nat.div_eq_of_lt_le (by omega) (by omega)
    simp [this]
  have : (n &&& (n - 1)).testBit k = true := by
    rw [Nat.testBit_land, hb1, hb2]
    rfl
  rw [hand] at this
  simp [Nat.zero_testBit] at this

theorem is_power_of_two_eq_false {n : Nat} (hne : n ≠ 0) (h : ¬ ∃ k, n = 2 ^ k) :
    is_power_of_two n = false := by
  rcases hb : is_power_of_two n with _ | _
  · rfl
  · exact absurd (is_power_of_two_eq_true hb) h

/-- `align_down` on a power-of-two alignment: rounds down to a multiple. -/
theorem align_down_pow2 {addr k : Nat} (hk : k ≤ 64) (haddr : addr < 2 ^ 64) :
    align_down addr (2 ^ k) = some (addr - addr % 2 ^ k) := by
  unfold align_down
  rw [is_power_of_two_two_pow, if_pos rfl, land_mask_eq addr k haddr hk]

/-- `align_up` on a power-of-two alignment never panics, and its result is a
multiple of the alignment (even when the intermediate `usize` sum wraps). -/
theorem align_up_pow2_dvd (addr k : Nat) (hk : k ≤ 64) :
    ∃ v, align_up addr (2 ^ k) = some v ∧ v % 2 ^ k = 0 := by
  unfold align_up
  set y := (addr + 2 ^ k + (2 ^ 64 - 1)) % 2 ^ 64 with hy
  have hylt : y < 2 ^ 64 := Nat.mod_lt _ (by norm_num)
  refine ⟨y - y % 2 ^ k, align_down_pow2 hk hylt, ?_⟩
  have := Nat.mod_add_div y (2 ^ k)
  have h1 : y - y % 2 ^ k = 2 ^ k * (y / 2 ^ k) := by omega
  rw [h1]
  exact Nat.mul_mod_right _ _

/-- `align_up` on a power-of-two alignment, when the `usize` intermediate sum
does not overflow: the least aligned address at or above `addr`. -/
theorem align_up_pow2_facts {addr k : Nat} (hk : k ≤ 64) (hbound : addr + 2 ^ k ≤ 2 ^ 64) :
    ∃ v, align_up addr (2 ^ k) = some v ∧ addr ≤ v ∧ v < addr + 2 ^ k ∧ v % 2 ^ k = 0 := by
  have h2k : 0 < 2 ^ k := Nat.pos_pow_of_pos k (by norm_num)
  unfold align_up
  have hyeq : (addr + 2 ^ k + (2 ^ 64 - 1)) % 2 ^ 64 = addr + 2 ^ k - 1 := by
    have h1 : addr + 2 ^ k + (2 ^ 64 - 1) = (addr + 2 ^ k - 1) + 2 ^ 64 := by omega
    rw [h1, Nat.add_mod_right, Nat.mod_eq_of_lt (by omega)]
  rw [hyeq]
  set y := addr + 2 ^ k - 1 with hydef
  have hylt : y < 2 ^ 64 := by omega
  refine ⟨y - y % 2 ^ k, align_down_pow2 hk hylt, ?_, ?_, ?_⟩
  · have hmod : y % 2 ^ k < 2 ^ k := Nat.mod_lt _ h2k
    omega
  · have : y % 2 ^ k ≤ y := Nat.mod_le _ _
    omega
  · have := Nat.mod_add_div y (2 ^ k)
    have h1 : y - y % 2 ^ k = 2 ^ k * (y / 2 ^ k) := by omega
    rw [h1]
    exact Nat.mul_mod_right _ _

/-! ### Hole-chain helper lemmas -/

theorem chain'_head_all {h : HoleInfo} {l : List HoleInfo}
    (hc : List.Chain' holeRel (h :: l)) : ∀ b ∈ l, holeRel h b := by
  intro b hb
  have hp : List.Pairwise holeRel (h :: l) := List.chain'_iff_pairwise.mp hc
  exact (List.pairwise_cons.mp hp).1 b hb

theorem chain'_drop_mid {l1 l2 : List HoleInfo} {H : HoleInfo}
    (hc : List.Chain' holeRel (l1 ++ H :: l2)) : List.Chain' holeRel (l1 ++ l2) := by
  apply List.chain'_iff_pairwise.mpr
  have hp : List.Pairwise holeRel (l1 ++ H :: l2) := List.chain'_iff_pairwise.mp hc
  exact hp.sublist (List.Sublist.append_left (List.sublist_cons_self H l2) l1)

theorem chain'_mid_facts {l1 l2 : List HoleInfo} {H : HoleInfo}
    (hc : List.Chain' holeRel (l1 ++ H :: l2)) :
    (∀ a ∈ l1, holeRel a H) ∧ ∀ b ∈ l2, holeRel H b := by
  have hp : List.Pairwise holeRel (l1 ++ H :: l2) := List.chain'_iff_pairwise.mp hc
  rw [List.pairwise_append] at hp
  refine ⟨fun a ha => hp.2.2 a ha H (by simp), fun b hb => ?_⟩
  exact (List.pairwise_cons.mp hp.2.1).1 b hb

theorem chain'_cons_cons {a b : HoleInfo} {l : List HoleInfo}
    (hc : List.Chain' holeRel (a :: b :: l)) : List.Chain' holeRel (a :: l) := by
  have := @chain'_drop_mid [a] l b hc
  simpa using this

/-! ### Unfolding equations for the deallocation walk -/

theorem deallocate_nil (hole : HoleInfo) (addr size : Nat) :
    deallocate hole [] addr size =
      if size < min_size then none
      else if (if hole.size = 0 then 0 else hole.addr) ≤ wrapSub addr hole.size then
        if (if hole.size = 0 then 0 else hole.addr) + hole.size = addr then
          some (⟨hole.addr, hole.size + size⟩, [])
        else
          some (hole, [(⟨addr, size⟩ : HoleInfo)])
      else none := rfl

theorem deallocate_cons (hole next : HoleInfo) (rest' : List HoleInfo) (addr size : Nat) :
    deallocate hole (next :: rest') addr size =
      if size < min_size then none
      else if (if hole.size = 0 then 0 else hole.addr) ≤ wrapSub addr hole.size then
        if (if hole.size = 0 then 0 else hole.addr) + hole.size = addr ∧
            addr + size = next.addr then
          some (⟨hole.addr, hole.size + (size + next.size)⟩, rest')
        else if (if hole.size = 0 then 0 else hole.addr) + hole.size = addr then
          some (⟨hole.addr, hole.size + size⟩, next :: rest')
        else if addr = wrapSub next.addr size then
          deallocate hole rest' addr (size + next.size)
        else if next.addr ≤ addr then
          (deallocate next rest' addr size).map fun p => (hole, p.1 :: p.2)
        else
          some (hole, ⟨addr, size⟩ :: next :: rest')
      else none := rfl

/-! ### Correctness of the deallocation walk -/

theorem addr_mk (a s : Nat) : (⟨a, s⟩ : HoleInfo).addr = a := rfl

theorem size_mk (a s : Nat) : (⟨a, s⟩ : HoleInfo).size = s := rfl

/-- Main lemma on the deallocation walk.  If the current hole (`⟨0, 0⟩` for
the sentinel) and the holes after it are ordered and non-touching, the freed
block has normalized size, lies strictly above the current hole's end and is
disjoint from every listed hole, then the walk succeeds (no assertion fires)
and returns a hole list that is again ordered and non-touching, made of real
holes covering only bytes of the old holes and of the freed block.  The
current hole keeps its address (it can only grow by merging). -/
theorem deallocate_good (rest : List HoleInfo) (hole : HoleInfo) (size addr : Nat)
    (hchain : List.Chain' holeRel (hole :: rest))
    (hhole : hole = ⟨0, 0⟩ ∨ realHole hole)
    (hreal : ∀ r ∈ rest, realHole r)
    (hsize : min_size ≤ size) (haddr : 0 < addr) (hbound : addr + size ≤ 2 ^ 63)
    (hend : hole.addr + hole.size ≤ addr)
    (hdisj : ∀ r ∈ rest, addr + size ≤ r.addr ∨ r.addr + r.size ≤ addr) :
    ∃ h2 rest2, deallocate hole rest addr size = some (h2, rest2) ∧
      List.Chain' holeRel (h2 :: rest2) ∧
      h2.addr = hole.addr ∧ hole.size ≤ h2.size ∧
      (hole = ⟨0, 0⟩ → h2 = hole) ∧
      (realHole hole → realHole h2) ∧
      (∀ r ∈ rest2, realHole r) ∧
      (∀ x, inFree x h2 rest2 → inFree x hole rest ∨ (addr ≤ x ∧ x < addr + size)) := by
  induction rest generalizing hole size with
  | nil =>
    have hha : (if hole.size = 0 then 0 else hole.addr) = hole.addr := by
      rcases hhole with h | h
      · rw [h]
        rfl
      · have h16 : min_size ≤ hole.size := h.2.1
        have : hole.size ≠ 0 := by unfold min_size at h16; omega
        rw [if_neg this]
    have hassert : hole.addr ≤ wrapSub addr hole.size := by
      rw [wrapSub_of_le (by omega) (by omega)]
      omega
    rw [deallocate_nil, hha, if_neg (show ¬ size < min_size by omega), if_pos hassert]
    by_cases hc : hole.addr + hole.size = addr
    · rw [if_pos hc]
      refine ⟨_, _, rfl, List.chain'_singleton _, rfl, by simp only [size_mk]; omega,
        ?_, ?_, ?_, ?_⟩
      · intro h0
        rw [h0] at hc
        simp at hc
        omega
      · intro hr
        obtain ⟨h1, h2, h3⟩ := hr
        exact ⟨h1, by simp only [size_mk]; unfold min_size at *; omega,
          by simp only [addr_mk, size_mk]; omega⟩
      · intro r hr
        simp at hr
      · intro x hx
        simp only [inFree, inHole, addr_mk, size_mk, List.not_mem_nil, false_and,
          exists_false, or_false] at hx ⊢
        omega
    · rw [if_neg hc]
      refine ⟨_, _, rfl, ?_, rfl, Nat.le_refl _, fun _ => rfl, fun h => h, ?_, ?_⟩
      · refine List.chain'_cons.mpr ⟨?_, List.chain'_singleton _⟩
        unfold holeRel
        simp only [addr_mk]
        omega
      · intro r hr
        simp only [List.mem_singleton] at hr
        rw [hr]
        exact ⟨haddr, hsize, hbound⟩
      · intro x hx
        simp only [inFree, inHole, addr_mk, size_mk, List.mem_singleton, exists_eq_left,
          List.not_mem_nil, false_and, exists_false, or_false] at hx ⊢
        omega
  | cons next rest' ih =>
    have hha : (if hole.size = 0 then 0 else hole.addr) = hole.addr := by
      rcases hhole with h | h
      · rw [h]
        rfl
      · have h16 : min_size ≤ hole.size := h.2.1
        have : hole.size ≠ 0 := by unfold min_size at h16; omega
        rw [if_neg this]
    have hassert : hole.addr ≤ wrapSub addr hole.size := by
      rw [wrapSub_of_le (by omega) (by omega)]
      omega
    have hrealn : realHole next := hreal next (by simp)
    have hchain' : List.Chain' holeRel (next :: rest') := (List.chain'_cons'.mp hchain).2
    have hrel : holeRel hole next := (List.chain'_cons.mp hchain).1
    have hn63 : next.addr + next.size ≤ 2 ^ 63 := hrealn.2.2
    have hn16 : min_size ≤ next.size := hrealn.2.1
    rw [deallocate_cons, hha, if_neg (show ¬ size < min_size by omega), if_pos hassert]
    by_cases hc1 : hole.addr + hole.size = addr ∧ addr + size = next.addr
    · -- three-way merge: the freed block exactly fills the gap
      rw [if_pos hc1]
      obtain ⟨hc1a, hc1b⟩ := hc1
      refine ⟨_, _, rfl, ?_, rfl, by simp only [size_mk]; omega, ?_, ?_, ?_, ?_⟩
      · rcases rest' with _ | ⟨y, rest''⟩
        · exact List.chain'_singleton _
        · have hny : holeRel next y := (List.chain'_cons.mp hchain').1
          refine List.chain'_cons.mpr ⟨?_, (List.chain'_cons.mp hchain').2⟩
          unfold holeRel at *
          simp only [addr_mk, size_mk]
          omega
      · intro h0
        rw [h0] at hc1a
        simp at hc1a
        omega
      · intro hr
        obtain ⟨h1, h2, h3⟩ := hr
        exact ⟨h1, by simp only [size_mk]; unfold min_size at *; omega,
          by simp only [addr_mk, size_mk]; omega⟩
      · intro r hr
        exact hreal r (by simp [hr])
      · intro x hx
        simp only [inFree, inHole, addr_mk, size_mk, List.mem_cons] at hx ⊢
        rcases hx with hx | ⟨r, hr, hxr⟩
        · by_cases h1 : x < hole.addr + hole.size
          · exact Or.inl (Or.inl ⟨hx.1, h1⟩)
          · by_cases h2 : x < addr + size
            · exact Or.inr ⟨by omega, h2⟩
            · exact Or.inl (Or.inr ⟨next, Or.inl rfl, by omega⟩)
        · exact Or.inl (Or.inr ⟨r, Or.inr hr, hxr⟩)
    · rw [if_neg hc1]
      by_cases hc2 : hole.addr + hole.size = addr
      · -- merge with the hole before only
        rw [if_pos hc2]
        have hnaddr : addr + size < next.addr := by
          rcases hdisj next (by simp) with h | h
          · have : addr + size ≠ next.addr := fun he => hc1 ⟨hc2, he⟩
            omega
          · unfold holeRel at hrel
            omega
        refine ⟨_, _, rfl, ?_, rfl, by simp only [size_mk]; omega, ?_, ?_, ?_, ?_⟩
        · refine List.chain'_cons.mpr ⟨?_, hchain'⟩
          unfold holeRel
          simp only [addr_mk, size_mk]
          omega
        · intro h0
          rw [h0] at hc2
          simp at hc2
          omega
        · intro hr
          obtain ⟨h1, h2, h3⟩ := hr
          exact ⟨h1, by simp only [size_mk]; unfold min_size at *; omega,
            by simp only [addr_mk, size_mk]; omega⟩
        · intro r hr
          exact hreal r hr
        · intro x hx
          simp only [inFree, inHole, addr_mk, size_mk, List.mem_cons] at hx ⊢
          rcases hx with hx | ⟨r, hr, hxr⟩
          · by_cases h1 : x < hole.addr + hole.size
            · exact Or.inl (Or.inl ⟨hx.1, h1⟩)
            · exact Or.inr ⟨by omega, by omega⟩
          · exact Or.inl (Or.inr ⟨r, hr, hxr⟩)
      · rw [if_neg hc2]
        by_cases hc3 : addr = wrapSub next.addr size
        · -- merge with the hole after: unlink it, grow the freed block, loop
          rw [if_pos hc3]
          have haseq : addr + size = next.addr := by
            rcases le_or_lt size next.addr with h | h
            · rw [wrapSub_of_le h (by omega)] at hc3
              omega
            · rw [wrapSub_of_lt h (by omega)] at hc3
              omega
          have hchain2 : List.Chain' holeRel (hole :: rest') := chain'_cons_cons hchain
          have hdisj' : ∀ r ∈ rest', addr + (size + next.size) ≤ r.addr ∨
              r.addr + r.size ≤ addr := by
            intro r hr
            have := chain'_head_all hchain' r hr
            unfold holeRel at this
            omega
          obtain ⟨h2, rest2, heq, hch, haeq, hsle, hsent, hrh, hrr, hcov⟩ :=
            ih hole (size + next.size) hchain2 hhole (fun r hr => hreal r (by simp [hr]))
              (by unfold min_size at *; omega) (by omega) hend hdisj'
          refine ⟨h2, rest2, heq, hch, haeq, hsle, hsent, hrh, hrr, ?_⟩
          intro x hx
          rcases hcov x hx with h | h
          · rcases h with h | ⟨r, hr, hxr⟩
            · exact Or.inl (Or.inl h)
            · exact Or.inl (Or.inr ⟨r, by simp [hr], hxr⟩)
          · by_cases h2x : x < addr + size
            · exact Or.inr ⟨h.1, h2x⟩
            · refine Or.inl (Or.inr ⟨next, by simp, ?_⟩)
              unfold inHole
              omega
        · rw [if_neg hc3]
          by_cases hc4 : next.addr ≤ addr
          · -- the freed block lies after the next hole: advance
            rw [if_pos hc4]
            have hnend : next.addr + next.size ≤ addr := by
              rcases hdisj next (by simp) with h | h
              · unfold min_size at hsize
                omega
              · exact h
            obtain ⟨h2, rest2, heq, hch, haeq, hsle, hsent, hrh, hrr, hcov⟩ :=
              ih next size hchain' (Or.inr hrealn) (fun r hr => hreal r (by simp [hr]))
                hsize hbound hnend
                (fun r hr => hdisj r (by simp [hr]))
            rw [heq]
            refine ⟨hole, h2 :: rest2, rfl, ?_, rfl, Nat.le_refl _, fun _ => rfl,
              fun h => h, ?_, ?_⟩
            · refine List.chain'_cons.mpr ⟨?_, hch⟩
              unfold holeRel at *
              omega
            · intro r hr
              rcases List.mem_cons.mp hr with h | h
              · rw [h]
                exact hrh hrealn
              · exact hrr r h
            · intro x hx
              simp only [inFree, inHole, List.mem_cons] at hx ⊢
              rcases hx with hx | ⟨r, hr, hxr⟩
              · exact Or.inl (Or.inl hx)
              · have hsub : inFree x h2 rest2 → inFree x next rest' ∨
                    (addr ≤ x ∧ x < addr + size) := hcov x
                have hin : inFree x h2 rest2 := by
                  unfold inFree inHole
                  rcases hr with h | h
                  · rw [h] at hxr
                    exact Or.inl hxr
                  · exact Or.inr ⟨r, h, hxr⟩
                rcases hsub hin with h | h
                · unfold inFree inHole at h
                  rcases h with h | ⟨r', hr', hxr'⟩
                  · exact Or.inl (Or.inr ⟨next, Or.inl rfl, h⟩)
                  · exact Or.inl (Or.inr ⟨r', Or.inr hr', hxr'⟩)
                · exact Or.inr h
          · -- the freed block lies strictly between: insert a fresh hole
            rw [if_neg hc4]
            have hnlt : addr < next.addr := by omega
            have hnaddr : addr + size < next.addr := by
              rcases hdisj next (by simp) with h | h
              · have hne : addr + size ≠ next.addr := by
                  intro he
                  apply hc3
                  rw [wrapSub_of_le (by omega) (by omega)]
                  omega
                omega
              · omega
            refine ⟨_, _, rfl, ?_, rfl, Nat.le_refl _, fun _ => rfl, fun h => h, ?_, ?_⟩
            · refine List.chain'_cons.mpr ⟨?_, List.chain'_cons.mpr ⟨?_, hchain'⟩⟩
              · unfold holeRel
                simp only [addr_mk, size_mk]
                omega
              · unfold holeRel
                simp only [addr_mk, size_mk]
                omega
            · intro r hr
              rcases List.mem_cons.mp hr with h | h
              · rw [h]
                exact ⟨haddr, hsize, hbound⟩
              · exact hreal r h
            · intro x hx
              simp only [inFree, inHole, List.mem_cons] at hx ⊢
              rcases hx with hx | ⟨r, hr, hxr⟩
              · exact Or.inl (Or.inl hx)
              · rcases hr with h | h
                · rw [h] at hxr
                  exact Or.inr hxr
                · exact Or.inl (Or.inr ⟨r, h, hxr⟩)

/-- The sentinel is never modified when freeing a nonzero address, and the
resulting list of real holes is again ordered, non-touching, real, and covers
only bytes of the old holes and of the freed block. -/
theorem deallocate_sentinel (holes : List HoleInfo) (addr size : Nat)
    (hchain : List.Chain' holeRel holes)
    (hreal : ∀ r ∈ holes, realHole r)
    (hsize : min_size ≤ size) (haddr : 0 < addr) (hbound : addr + size ≤ 2 ^ 63)
    (hdisj : ∀ r ∈ holes, addr + size ≤ r.addr ∨ r.addr + r.size ≤ addr) :
    ∃ holes2, deallocate ⟨0, 0⟩ holes addr size = some (⟨0, 0⟩, holes2) ∧
      List.Chain' holeRel holes2 ∧ (∀ r ∈ holes2, realHole r) ∧
      ∀ x, (∃ r ∈ holes2, inHole x r) →
        (∃ r ∈ holes, inHole x r) ∨ (addr ≤ x ∧ x < addr + size) := by
  have hch : List.Chain' holeRel ((⟨0, 0⟩ : HoleInfo) :: holes) := by
    refine List.chain'_cons'.mpr ⟨?_, hchain⟩
    intro y hy
    cases holes with
    | nil => simp at hy
    | cons a t =>
      simp only [List.head?_cons, Option.mem_some_iff] at hy
      subst hy
      have := (hreal a (by simp)).1
      unfold holeRel
      simp only [addr_mk, size_mk]
      omega
  obtain ⟨h2, rest2, heq, hch2, haeq, hsle, hsent, _, hrr, hcov⟩ :=
    deallocate_good holes ⟨0, 0⟩ size addr hch (Or.inl rfl) hreal hsize haddr hbound
      (by simp only [addr_mk, size_mk]; omega) hdisj
  rw [hsent rfl] at heq
  refine ⟨rest2, heq, ?_, hrr, ?_⟩
  · rw [hsent rfl] at hch2
    exact (List.chain'_cons'.mp hch2).2
  · intro x hx
    obtain ⟨r, hr, hxr⟩ := hx
    have hin : inFree x h2 rest2 := Or.inr ⟨r, hr, hxr⟩
    rcases hcov x hin with h | h
    · rcases h with h | h
      · unfold inHole at h
        simp only [addr_mk, size_mk] at h
        omega
      · exact Or.inl h
    · exact Or.inr h

/-! ### First-fit search -/

theorem allocate_first_fit_nil (layout : Layout) : allocate_first_fit [] layout = none := rfl

theorem allocate_first_fit_cons (c : HoleInfo) (rest : List HoleInfo) (layout : Layout) :
    allocate_first_fit (c :: rest) layout =
      match split_hole c layout with
      | some alloc_info => some (alloc_info, rest)
      | none => (allocate_first_fit rest layout).map fun p => (p.1, c :: p.2) := rfl

/-- Decomposition of a successful first-fit search: the chosen hole is the
first one whose split succeeds, and it is unlinked from the list. -/
theorem allocate_first_fit_decomp {holes : List HoleInfo} {layout : Layout}
    {ai : AllocInfo} {holes' : List HoleInfo}
    (h : allocate_first_fit holes layout = some (ai, holes')) :
    ∃ l1 H l2, holes = l1 ++ H :: l2 ∧ holes' = l1 ++ l2 ∧
      split_hole H layout = some ai ∧ ∀ h' ∈ l1, split_hole h' layout = none := by
  induction holes generalizing holes' with
  | nil => rw [allocate_first_fit_nil] at h; exact absurd h (by simp)
  | cons c rest ih =>
    rw [allocate_first_fit_cons] at h
    cases hsp : split_hole c layout with
    | some a2 =>
      rw [hsp] at h
      simp only [Option.some_inj, Prod.mk.injEq] at h
      exact ⟨[], c, rest, by simp, by simp [h.2], by rw [hsp, h.1], by simp⟩
    | none =>
      rw [hsp] at h
      simp only [Option.map_eq_some'] at h
      obtain ⟨⟨ai2, holes2⟩, h2, hinj⟩ := h
      simp only [Prod.mk.injEq] at hinj
      obtain ⟨l1, H, l2, he1, he2, he3, he4⟩ := ih (by rw [h2, hinj.1])
      refine ⟨c :: l1, H, l2, by simp [he1], by rw [← hinj.2, he2]; simp, he3, ?_⟩
      intro h' hh'
      rcases List.mem_cons.mp hh' with h | h
      · rw [h, hsp]
      · exact he4 h' h

/-- If some hole splits successfully, the first-fit search succeeds. -/
theorem allocate_first_fit_of_fits {holes : List HoleInfo} {layout : Layout}
    (h : ∃ H ∈ holes, (split_hole H layout).isSome) :
    ∃ ai holes', allocate_first_fit holes layout = some (ai, holes') := by
  induction holes with
  | nil => simp at h
  | cons c rest ih =>
    rw [allocate_first_fit_cons]
    cases hsp : split_hole c layout with
    | some a2 => exact ⟨a2, rest, rfl⟩
    | none =>
      obtain ⟨H, hH, hs⟩ := h
      rcases List.mem_cons.mp hH with he | he
      · rw [he, hsp] at hs
        simp at hs
      · obtain ⟨ai, holes', hff⟩ := ih ⟨H, he, hs⟩
        exact ⟨ai, c :: holes', by rw [hff]; rfl⟩

/-! ### Facts about a successful split -/

theorem allocated_info_mk (a : HoleInfo) (f b : Option HoleInfo) :
    (AllocInfo.mk a f b).allocated_info = a := rfl

theorem front_hole_info_mk (a : HoleInfo) (f b : Option HoleInfo) :
    (AllocInfo.mk a f b).front_hole_info = f := rfl

theorem back_hole_info_mk (a : HoleInfo) (f b : Option HoleInfo) :
    (AllocInfo.mk a f b).back_hole_info = b := rfl

/-- The address handed out by a successful split is aligned (needs only the
power-of-two alignment carried by every Rust `Layout`). -/
theorem split_hole_aligned {H : HoleInfo} {l : Layout} {ai : AllocInfo} {k : Nat}
    (hk : k ≤ 64) (halign : l.align = 2 ^ k)
    (hs : split_hole H l = some ai) :
    ai.allocated_info.addr % l.align = 0 := by
  rw [halign]
  unfold split_hole at hs
  by_cases hgt : l.size > H.size
  · rw [if_pos hgt] at hs
    exact absurd hs (by simp)
  rw [if_neg hgt, halign] at hs
  obtain ⟨v0, hv0, h0m⟩ := align_up_pow2_dvd H.addr k hk
  rw [hv0] at hs
  simp only [] at hs
  by_cases heq : H.addr = v0
  · rw [if_pos heq] at hs
    simp only [] at hs
    by_cases hg : wrapSub H.addr H.addr > wrapSub H.size l.size
    · rw [if_pos hg] at hs
      exact absurd hs (by simp)
    · rw [if_neg hg] at hs
      simp only [Option.some.injEq] at hs
      subst hs
      simp only [allocated_info_mk, addr_mk]
      rw [heq]
      exact h0m
  · rw [if_neg heq] at hs
    obtain ⟨v1, hv1, h1m⟩ := align_up_pow2_dvd (H.addr + min_size) k hk
    rw [hv1] at hs
    simp only [] at hs
    by_cases hg : wrapSub v1 H.addr > wrapSub H.size l.size
    · rw [if_pos hg] at hs
      exact absurd hs (by simp)
    · rw [if_neg hg] at hs
      simp only [Option.some.injEq] at hs
      subst hs
      simp only [allocated_info_mk, addr_mk]
      exact h1m

/-- Geometry of a successful split of a real hole by a valid layout: the
allocated block lies inside the hole, the front padding starts at the hole's
start and ends at the allocated address, and the back padding starts right
after the allocated block and ends at the hole's end; both paddings have at
least the minimum block size. -/
theorem split_hole_facts {H : HoleInfo} {l : Layout} {ai : AllocInfo} {k : Nat}
    (hH : realHole H) (hk : k < 64) (halign : l.align = 2 ^ k)
    (hl16 : min_size ≤ l.size)
    (hs : split_hole H l = some ai) :
    ai.allocated_info.size = l.size ∧
    H.addr ≤ ai.allocated_info.addr ∧
    ai.allocated_info.addr + l.size ≤ H.addr + H.size ∧
    (∀ f, ai.front_hole_info = some f →
      f.addr = H.addr ∧ min_size ≤ f.size ∧ f.addr + f.size = ai.allocated_info.addr) ∧
    (∀ b, ai.back_hole_info = some b →
      min_size ≤ b.size ∧ b.addr = ai.allocated_info.addr + l.size ∧
      b.addr + b.size = H.addr + H.size) := by
  obtain ⟨hpos, h16, h63⟩ := hH
  have hms : min_size = 16 := rfl
  have hk2 : (2 : Nat) ^ k ≤ 2 ^ 63 := Nat.pow_le_pow_right (by norm_num) (by omega)
  unfold split_hole at hs
  by_cases hgt : l.size > H.size
  · rw [if_pos hgt] at hs
    exact absurd hs (by simp)
  rw [if_neg hgt, halign] at hs
  obtain ⟨v0, hv0, h0a, h0b, h0m⟩ :=
    @align_up_pow2_facts H.addr k (Nat.le_of_lt hk) (by omega)
  rw [hv0] at hs
  simp only [] at hs
  by_cases heq : H.addr = v0
  · -- the hole is already aligned: no front padding
    rw [if_pos heq] at hs
    simp only [] at hs
    have hws : wrapSub H.addr H.addr = 0 := by
      rw [wrapSub_of_le (Nat.le_refl _) (by omega)]
      omega
    have hws2 : wrapSub H.size l.size = H.size - l.size := wrapSub_of_le (by omega) (by omega)
    rw [hws, hws2, if_neg (by omega : ¬ (0 > H.size - l.size))] at hs
    have hws3 : wrapSub H.size 0 = H.size := wrapSub_zero (by omega)
    rw [hws3, hws2] at hs
    simp only [Option.some.injEq] at hs
    subst hs
    simp only [allocated_info_mk, front_hole_info_mk, back_hole_info_mk, addr_mk, size_mk]
    refine ⟨by trivial, Nat.le_refl _, by omega, ?_, ?_⟩
    · intro f hf
      exact absurd hf (by simp)
    · intro b hb
      by_cases htail : H.size - l.size < min_size
      · rw [if_pos htail] at hb
        exact absurd hb (by simp)
      · rw [if_neg htail] at hb
        simp only [Option.some.injEq] at hb
        subst hb
        simp only [addr_mk, size_mk]
        refine ⟨by omega, by trivial, by omega⟩
  · -- front padding before the aligned address
    rw [if_neg heq] at hs
    obtain ⟨v1, hv1, h1a, h1b, h1m⟩ :=
      @align_up_pow2_facts (H.addr + min_size) k (Nat.le_of_lt hk) (by omega)
    rw [hv1] at hs
    simp only [] at hs
    have hv164 : v1 < 2 ^ 64 := by omega
    have hw1 : wrapSub v1 H.addr = v1 - H.addr := wrapSub_of_le (by omega) hv164
    have hw2 : wrapSub H.size l.size = H.size - l.size := wrapSub_of_le (by omega) (by omega)
    rw [hw1, hw2] at hs
    by_cases hg : v1 - H.addr > H.size - l.size
    · rw [if_pos hg] at hs
      exact absurd hs (by simp)
    · rw [if_neg hg] at hs
      have hw3 : wrapSub H.size (v1 - H.addr) = H.size - (v1 - H.addr) :=
        wrapSub_of_le (by omega) (by omega)
      have hw4 : wrapSub (H.size - (v1 - H.addr)) l.size = H.size - (v1 - H.addr) - l.size :=
        wrapSub_of_le (by omega) (by omega)
      rw [hw3, hw4] at hs
      simp only [Option.some.injEq] at hs
      subst hs
      simp only [allocated_info_mk, front_hole_info_mk, back_hole_info_mk, addr_mk, size_mk]
      refine ⟨by trivial, by omega, by omega, ?_, ?_⟩
      · intro f hf
        simp only [Option.some.injEq] at hf
        subst hf
        simp only [addr_mk, size_mk]
        refine ⟨by trivial, by omega, by omega⟩
      · intro b hb
        by_cases htail : H.size - (v1 - H.addr) - l.size < min_size
        · rw [if_pos htail] at hb
          exact absurd hb (by simp)
        · rw [if_neg htail] at hb
          simp only [Option.some.injEq] at hb
          subst hb
          simp only [addr_mk, size_mk]
          refine ⟨by omega, by trivial, by omega⟩

/-! ### The allocation pipeline -/

/-- After a successful first-fit split on a well-formed hole list, reinserting
the front and the back padding succeeds (no assertion fires), the resulting
hole list is again well formed, and the returned address is nonzero. -/
theorem alloc_pipeline {holes : List HoleInfo} {layout : Layout} {ai : AllocInfo}
    {holes1 : List HoleInfo} {k : Nat}
    (hchain : List.Chain' holeRel holes) (hreal : ∀ h ∈ holes, realHole h)
    (hk : k < 64) (halign : layout.align = 2 ^ k)
    (hl16 : min_size ≤ layout.size) (hl63 : layout.size ≤ 2 ^ 63)
    (hff : allocate_first_fit holes layout = some (ai, holes1)) :
    ∃ holes2 holes3, free_info holes1 ai.front_hole_info = some holes2 ∧
      free_info holes2 ai.back_hole_info = some holes3 ∧
      List.Chain' holeRel holes3 ∧ (∀ h ∈ holes3, realHole h) ∧
      0 < ai.allocated_info.addr := by
  have hms : min_size = 16 := rfl
  obtain ⟨l1, H, l2, he1, he2, he3, _⟩ := allocate_first_fit_decomp hff
  subst he1
  subst he2
  have hH : realHole H := hreal H (by simp)
  obtain ⟨ha1, ha2, ha3, hfr, hbk⟩ := split_hole_facts hH hk halign hl16 he3
  have hmid := chain'_mid_facts hchain
  have hchain1 : List.Chain' holeRel (l1 ++ l2) := chain'_drop_mid hchain
  have hreal1 : ∀ h ∈ l1 ++ l2, realHole h := by
    intro h hh
    rcases List.mem_append.mp hh with h1 | h2
    · exact hreal h (List.mem_append.mpr (Or.inl h1))
    · exact hreal h (by simp [h2])
  have hHpos : 0 < H.addr := hH.1
  have hH63 : H.addr + H.size ≤ 2 ^ 63 := hH.2.2
  have step1 : ∃ holes2, free_info (l1 ++ l2) ai.front_hole_info = some holes2 ∧
      List.Chain' holeRel holes2 ∧ (∀ h ∈ holes2, realHole h) ∧
      ∀ x, (∃ r ∈ holes2, inHole x r) →
        (∃ r ∈ l1 ++ l2, inHole x r) ∨ (H.addr ≤ x ∧ x < ai.allocated_info.addr) := by
    cases hfio : ai.front_hole_info with
    | none => exact ⟨l1 ++ l2, rfl, hchain1, hreal1, fun x hx => Or.inl hx⟩
    | some f =>
      obtain ⟨hfa, hfs, hfe⟩ := hfr f hfio
      have hdisjf : ∀ r ∈ l1 ++ l2, f.addr + f.size ≤ r.addr ∨ r.addr + r.size ≤ f.addr := by
        intro r hr
        rcases List.mem_append.mp hr with h1 | h2
        · have := hmid.1 r h1
          unfold holeRel at this
          right
          omega
        · have := hmid.2 r h2
          unfold holeRel at this
          left
          omega
      obtain ⟨holes2, heq2, hc2, hr2, hcov2⟩ :=
        deallocate_sentinel (l1 ++ l2) f.addr f.size hchain1 hreal1 hfs (by omega)
          (by omega) hdisjf
      refine ⟨holes2, ?_, hc2, hr2, ?_⟩
      · simp only [free_info]
        rw [heq2]
        rfl
      · intro x hx
        rcases hcov2 x hx with h | h
        · exact Or.inl h
        · right
          omega
  obtain ⟨holes2, hfi1, hchain2, hreal2, hcov2⟩ := step1
  have step2 : ∃ holes3, free_info holes2 ai.back_hole_info = some holes3 ∧
      List.Chain' holeRel holes3 ∧ ∀ h ∈ holes3, realHole h := by
    cases hbio : ai.back_hole_info with
    | none => exact ⟨holes2, rfl, hchain2, hreal2⟩
    | some b =>
      obtain ⟨hbs, hba, hbe⟩ := hbk b hbio
      have hdisjb : ∀ r ∈ holes2, b.addr + b.size ≤ r.addr ∨ r.addr + r.size ≤ b.addr := by
        intro r hr
        by_contra hcon
        push_neg at hcon
        obtain ⟨hc1, hc2⟩ := hcon
        have hrreal := hreal2 r hr
        have hrsz : min_size ≤ r.size := hrreal.2.1
        -- a common byte x of b and r is covered by holes2, hence by the old
        -- holes or the front padding; every case contradicts the geometry
        have hx : ∃ x, inHole x r ∧ b.addr ≤ x ∧ x < b.addr + b.size := by
          by_cases hbr : b.addr ≤ r.addr
          · exact ⟨r.addr, ⟨Nat.le_refl _, by omega⟩, hbr, hc1⟩
          · exact ⟨b.addr, ⟨by omega, by omega⟩, Nat.le_refl _, by omega⟩
        obtain ⟨x, hxr, hxb1, hxb2⟩ := hx
        rcases hcov2 x ⟨r, hr, hxr⟩ with h | h
        · obtain ⟨r', hr', hxr'⟩ := h
          unfold inHole at hxr'
          rcases List.mem_append.mp hr' with h1 | h2
          · have := hmid.1 r' h1
            unfold holeRel at this
            omega
          · have := hmid.2 r' h2
            unfold holeRel at this
            omega
        · omega
      obtain ⟨holes3, heq3, hc3, hr3, _⟩ :=
        deallocate_sentinel holes2 b.addr b.size hchain2 hreal2 hbs (by omega)
          (by omega) hdisjb
      refine ⟨holes3, ?_, hc3, hr3⟩
      simp only [free_info]
      rw [heq3]
      rfl
  obtain ⟨holes3, hfi2, hchain3, hreal3⟩ := step2
  exact ⟨holes2, holes3, hfi1, hfi2, hchain3, hreal3, by omega⟩

/-- A successful `HoleList::alloc` on a well-formed hole list yields a
well-formed hole list and a nonzero address. -/
theorem HoleList.alloc_ok_good {holes : List HoleInfo} {layout : Layout}
    {a : Nat} {holes3 : List HoleInfo} {k : Nat}
    (hchain : List.Chain' holeRel holes) (hreal : ∀ h ∈ holes, realHole h)
    (hk : k < 64) (halign : layout.align = 2 ^ k)
    (hl16 : min_size ≤ layout.size) (hl63 : layout.size ≤ 2 ^ 63)
    (hok : HoleList.alloc holes layout = .ok a holes3) :
    List.Chain' holeRel holes3 ∧ (∀ h ∈ holes3, realHole h) ∧ 0 < a := by
  unfold HoleList.alloc at hok
  rw [if_neg (by omega : ¬ layout.size < min_size)] at hok
  cases hff : allocate_first_fit holes layout with
  | none =>
    rw [hff] at hok
    exact absurd hok (by simp)
  | some p =>
    obtain ⟨ai, holes1⟩ := p
    rw [hff] at hok
    simp only [] at hok
    obtain ⟨holes2, holes3', hfi1, hfi2, hc3, hr3, hpos⟩ :=
      alloc_pipeline hchain hreal hk halign hl16 hl63 hff
    rw [hfi1] at hok
    simp only [] at hok
    rw [hfi2] at hok
    simp only [] at hok
    rw [if_neg (by omega : ¬ ai.allocated_info.addr = 0)] at hok
    simp only [AllocResult.ok.injEq] at hok
    obtain ⟨h1, h2⟩ := hok
    subst h1
    subst h2
    exact ⟨hc3, hr3, hpos⟩

/-- If some hole of a well-formed hole list splits successfully for the
layout, `HoleList::alloc` succeeds. -/
theorem HoleList.alloc_fits_ok {holes : List HoleInfo} {layout : Layout} {k : Nat}
    (hchain : List.Chain' holeRel holes) (hreal : ∀ h ∈ holes, realHole h)
    (hk : k < 64) (halign : layout.align = 2 ^ k)
    (hl16 : min_size ≤ layout.size) (hl63 : layout.size ≤ 2 ^ 63)
    (hfits : ∃ H ∈ holes, (split_hole H layout).isSome) :
    ∃ a holes3, HoleList.alloc holes layout = .ok a holes3 := by
  obtain ⟨ai, holes1, hff⟩ := allocate_first_fit_of_fits hfits
  obtain ⟨holes2, holes3, hfi1, hfi2, hc3, hr3, hpos⟩ :=
    alloc_pipeline hchain hreal hk halign hl16 hl63 hff
  refine ⟨ai.allocated_info.addr, holes3, ?_⟩
  unfold HoleList.alloc
  rw [if_neg (by omega : ¬ layout.size < min_size), hff]
  simp only []
  rw [hfi1]
  simp only []
  rw [hfi2]
  simp only []
  rw [if_neg (by omega : ¬ ai.allocated_info.addr = 0)]

/-- Inverting a successful `HoleList::alloc`: the returned address comes from
a successful split of one of the listed holes (no well-formedness needed). -/
theorem HoleList.alloc_ok_split {holes : List HoleInfo} {layout : Layout}
    {a : Nat} {holes3 : List HoleInfo}
    (hok : HoleList.alloc holes layout = .ok a holes3) :
    ∃ H ∈ holes, ∃ ai, split_hole H layout = some ai ∧ a = ai.allocated_info.addr := by
  unfold HoleList.alloc at hok
  by_cases h16 : layout.size < min_size
  · rw [if_pos h16] at hok
    exact absurd hok (by simp)
  rw [if_neg h16] at hok
  cases hff : allocate_first_fit holes layout with
  | none =>
    rw [hff] at hok
    exact absurd hok (by simp)
  | some p =>
    obtain ⟨ai, holes1⟩ := p
    rw [hff] at hok
    simp only [] at hok
    obtain ⟨l1, H, l2, he1, _, he3, _⟩ := allocate_first_fit_decomp hff
    refine ⟨H, by rw [he1]; simp, ai, he3, ?_⟩
    cases hf1 : free_info holes1 ai.front_hole_info with
    | none =>
      rw [hf1] at hok
      exact absurd hok (by simp)
    | some holes2 =>
      rw [hf1] at hok
      simp only [] at hok
      cases hf2 : free_info holes2 ai.back_hole_info with
      | none =>
        rw [hf2] at hok
        exact absurd hok (by simp)
      | some holes3' =>
        rw [hf2] at hok
        simp only [] at hok
        by_cases hz : ai.allocated_info.addr = 0
        · rw [if_pos hz] at hok
          exact absurd hok (by simp)
        · rw [if_neg hz] at hok
          simp only [AllocResult.ok.injEq] at hok
          exact hok.1.symm

theorem layout_size_mk (s a : Nat) : (Layout.mk s a).size = s := rfl

theorem layout_align_mk (s a : Nat) : (Layout.mk s a).align = a := rfl

/-! ### Claim theorems -/

/-- Claim C9: `align_down` returns the greatest aligned address at or below
`addr` for every power-of-two alignment, returns `addr` unchanged for
alignment 0, and panics (modelled as `none`) for every other alignment. -/
theorem align_down_spec (addr align : Nat) (haddr : addr < 2 ^ 64) :
    ((∃ k, k < 64 ∧ align = 2 ^ k) →
      ∃ a2, align_down addr align = some a2 ∧ a2 ≤ addr ∧ a2 % align = 0 ∧
        ∀ b, b ≤ addr → b % align = 0 → b ≤ a2) ∧
    (align = 0 → align_down addr align = some addr) ∧
    (align ≠ 0 → (¬ ∃ k, align = 2 ^ k) → align_down addr align = none) := by
  refine ⟨?_, ?_, ?_⟩
  · rintro ⟨k, hk, rfl⟩
    rw [align_down_pow2 (Nat.le_of_lt hk) haddr]
    have h2k : 0 < 2 ^ k := Nat.pos_pow_of_pos k (by norm_num)
    have hmd := Nat.mod_add_div addr (2 ^ k)
    have h1 : addr - addr % 2 ^ k = 2 ^ k * (addr / 2 ^ k) := by omega
    refine ⟨addr - addr % 2 ^ k, rfl, Nat.sub_le _ _, by rw [h1]; exact Nat.mul_mod_right _ _, ?_⟩
    intro b hb hbm
    have hb2 := Nat.mod_add_div b (2 ^ k)
    have hdivle : b / 2 ^ k ≤ addr / 2 ^ k := Nat.div_le_div_right hb
    have := Nat.mul_le_mul_left (2 ^ k) hdivle
    omega
  · intro h0
    subst h0
    rfl
  · intro hne hnp
    unfold align_down
    rw [is_power_of_two_eq_false hne hnp]
    simp [hne]

/-- Witness for C9 at `addr = 100`, `align = 8`. -/
theorem align_down_spec_witness :
    ∃ a2, align_down 100 8 = some a2 ∧ a2 ≤ 100 ∧ a2 % 8 = 0 ∧
      ∀ b, b ≤ 100 → b % 8 = 0 → b ≤ a2 :=
  (align_down_spec 100 8 (by decide)).1 ⟨3, by decide, rfl⟩

/-- Claim C10: the zero-alignment convention of `align_down` does not carry
over to `align_up`: for `addr ≥ 1`, `align_up addr 0` returns `addr - 1`
(not `addr`), because it computes `align_down (addr + 0 - 1) 0`; for
`addr = 0` that `usize` subtraction underflows (wrapping to `2 ^ 64 - 1`). -/
theorem align_up_zero_align (addr : Nat) (h1 : 1 ≤ addr) (h2 : addr < 2 ^ 64) :
    align_up addr 0 = some (addr - 1) ∧ addr - 1 ≠ addr ∧
    align_down addr 0 = some addr ∧ align_up 0 0 = some (2 ^ 64 - 1) := by
  refine ⟨?_, by omega, rfl, by rfl⟩
  unfold align_up
  have h3 : addr + 0 + (2 ^ 64 - 1) = (addr - 1) + 2 ^ 64 := by omega
  rw [h3, Nat.add_mod_right, Nat.mod_eq_of_lt (by omega)]
  rfl

/-- Witness for C10 at `addr = 5`. -/
theorem align_up_zero_align_witness :
    align_up 5 0 = some 4 ∧ 4 ≠ 5 ∧
    align_down 5 0 = some 5 ∧ align_up 0 0 = some (2 ^ 64 - 1) :=
  align_up_zero_align 5 (by decide) (by decide)

/-- Claim C7: every address returned by a successful `HeapAllocator::alloc`
is a multiple of the layout's (power-of-two) alignment. -/
theorem alloc_aligned (heap : Heap) (layout : Layout) (a : Nat) (heap2 : Heap)
    (hpow : ∃ k, k < 64 ∧ layout.align = 2 ^ k)
    (hok : HeapAllocator.alloc heap layout = .ok a heap2) :
    a % layout.align = 0 := by
  obtain ⟨k, hk, halign⟩ := hpow
  unfold HeapAllocator.alloc at hok
  cases hfs : Layout.from_size_align
      (if layout.size < min_size then min_size else layout.size) layout.align with
  | none =>
    rw [hfs] at hok
    exact absurd hok (by simp)
  | some layout2 =>
    rw [hfs] at hok
    simp only [] at hok
    have hl2align : layout2.align = layout.align := by
      unfold Layout.from_size_align at hfs
      by_cases hb1 : is_power_of_two layout.align = false
      · rw [if_pos hb1] at hfs
        exact absurd hfs (by simp)
      · rw [if_neg hb1] at hfs
        by_cases hb2 : 2 ^ 64 - layout.align <
            (if layout.size < min_size then min_size else layout.size)
        · rw [if_pos hb2] at hfs
          exact absurd hfs (by simp)
        · rw [if_neg hb2] at hfs
          simp only [Option.some.injEq] at hfs
          rw [← hfs]
    cases hla : HoleList.alloc heap.holes layout2 with
    | ok a2 holes2 =>
      rw [hla] at hok
      simp only [HeapAllocResult.ok.injEq] at hok
      obtain ⟨H, hH, ai, hsp, haeq⟩ := HoleList.alloc_ok_split hla
      rw [← hok.1, haeq, ← hl2align]
      exact split_hole_aligned (Nat.le_of_lt hk) (by rw [hl2align, halign]) hsp
    | oom =>
      rw [hla] at hok
      exact absurd hok (by simp)
    | fatal =>
      rw [hla] at hok
      exact absurd hok (by simp)

/-- Witness for C7: an allocation on a fresh 4 KiB heap at `0x1000`. -/
theorem alloc_aligned_witness : 4096 % 8 = 0 :=
  alloc_aligned ⟨4096, 4096, [⟨4096, 4096⟩]⟩ ⟨16, 8⟩ 4096 ⟨4096, 4096, [⟨4112, 4080⟩]⟩
    ⟨3, by decide, rfl⟩ (by decide)

/-- Claim C8: first-fit ordering.  On an address-ordered hole list, a
successful search unlinks exactly the first hole (in list order) whose split
succeeds — every earlier hole fails to split — and that hole has the lowest
address among all holes that could satisfy the layout. -/
theorem allocate_first_fit_first (holes : List HoleInfo) (layout : Layout)
    (ai : AllocInfo) (holes2 : List HoleInfo)
    (hchain : List.Chain' holeRel holes)
    (hff : allocate_first_fit holes layout = some (ai, holes2)) :
    ∃ l1 H l2, holes = l1 ++ H :: l2 ∧ holes2 = l1 ++ l2 ∧
      split_hole H layout = some ai ∧ (∀ h ∈ l1, split_hole h layout = none) ∧
      ∀ h ∈ holes, (split_hole h layout).isSome → H.addr ≤ h.addr := by
  obtain ⟨l1, H, l2, he1, he2, he3, he4⟩ := allocate_first_fit_decomp hff
  subst he1
  refine ⟨l1, H, l2, rfl, he2, he3, he4, ?_⟩
  intro h hh hs
  rcases List.mem_append.mp hh with h1 | h2
  · rw [he4 h h1] at hs
    simp at hs
  · rcases List.mem_cons.mp h2 with h3 | h3
    · rw [h3]
    · have := (chain'_mid_facts hchain).2 h h3
      unfold holeRel at this
      omega

/-- Witness for C8: the first hole is too small, the second is chosen. -/
theorem allocate_first_fit_first_witness :
    ∃ l1 H l2, ([⟨4096, 16⟩, ⟨8192, 4096⟩] : List HoleInfo) = l1 ++ H :: l2 ∧
      ([⟨4096, 16⟩] : List HoleInfo) = l1 ++ l2 ∧
      split_hole H ⟨32, 8⟩ = some ⟨⟨8192, 32⟩, none, some ⟨8224, 4064⟩⟩ ∧
      (∀ h ∈ l1, split_hole h ⟨32, 8⟩ = none) ∧
      ∀ h ∈ ([⟨4096, 16⟩, ⟨8192, 4096⟩] : List HoleInfo),
        (split_hole h ⟨32, 8⟩).isSome → H.addr ≤ h.addr :=
  allocate_first_fit_first [⟨4096, 16⟩, ⟨8192, 4096⟩] ⟨32, 8⟩
    ⟨⟨8192, 32⟩, none, some ⟨8224, 4064⟩⟩ [⟨4096, 16⟩]
    (List.chain'_cons.mpr ⟨by decide, List.chain'_singleton _⟩) (by decide)

/-- Claim C3: from any state whose real holes are listed in strictly
ascending address order with no two consecutive holes touching (together with
the remaining state invariants I1/I4: real holes, in-range, at least
`MIN_BLOCK`), allocation re-establishes that property whenever it returns
`Ok`, and deallocation of a live block (normalized size, disjoint from every
hole, nonzero address) succeeds and re-establishes it as well. -/
theorem alloc_dealloc_preserve_invariant (holes : List HoleInfo)
    (layout dlayout : Layout) (addr : Nat)
    (hchain : List.Chain' holeRel holes) (hreal : ∀ h ∈ holes, realHole h)
    (hpow : ∃ k, k < 64 ∧ layout.align = 2 ^ k)
    (hl16 : min_size ≤ layout.size) (hl63 : layout.size ≤ 2 ^ 63)
    (hd16 : min_size ≤ dlayout.size) (haddr : 0 < addr)
    (hdb : addr + dlayout.size ≤ 2 ^ 63)
    (hdisj : ∀ h ∈ holes, addr + dlayout.size ≤ h.addr ∨ h.addr + h.size ≤ addr) :
    (∀ a holes2, HoleList.alloc holes layout = .ok a holes2 →
      List.Chain' holeRel holes2 ∧ ∀ h ∈ holes2, realHole h) ∧
    (∃ holes2, HoleList.deallocate holes addr dlayout = some holes2 ∧
      List.Chain' holeRel holes2 ∧ ∀ h ∈ holes2, realHole h) := by
  obtain ⟨k, hk, halign⟩ := hpow
  constructor
  · intro a holes2 hok
    have h := HoleList.alloc_ok_good hchain hreal hk halign hl16 hl63 hok
    exact ⟨h.1, h.2.1⟩
  · obtain ⟨holes2, heq, hc, hr, _⟩ :=
      deallocate_sentinel holes addr dlayout.size hchain hreal hd16 haddr hdb hdisj
    refine ⟨holes2, ?_, hc, hr⟩
    unfold HoleList.deallocate
    rw [heq]
    rfl

/-- Witness for C3: a fresh 4 KiB heap, a 16-byte allocation, and the free
of a block lying just past the hole. -/
theorem alloc_dealloc_preserve_invariant_witness :
    (∀ a holes2, HoleList.alloc [⟨4096, 4096⟩] ⟨16, 8⟩ = .ok a holes2 →
      List.Chain' holeRel holes2 ∧ ∀ h ∈ holes2, realHole h) ∧
    (∃ holes2, HoleList.deallocate [⟨4096, 4096⟩] 8192 ⟨16, 8⟩ = some holes2 ∧
      List.Chain' holeRel holes2 ∧ ∀ h ∈ holes2, realHole h) :=
  alloc_dealloc_preserve_invariant [⟨4096, 4096⟩] ⟨16, 8⟩ ⟨16, 8⟩ 8192
    (List.chain'_singleton _) (by decide) ⟨3, by decide, rfl⟩ (by decide) (by decide)
    (by decide) (by decide) (by decide) (by decide)

/-- Rewriting of the facade's size normalization as a layout. -/
theorem normLayout_eq (l : Layout) :
    normLayout l = ⟨if l.size < min_size then min_size else l.size, l.align⟩ := by
  unfold normLayout
  split
  · rfl
  · rfl

/-- Claim C6: atomicity of allocation failure.  If `HeapAllocator::alloc`
returns out-of-memory, the heap it hands back is exactly the input heap
(bottom, size and hole list untouched), and any subsequent request whose
normalized layout splits some hole of that heap still succeeds. -/
theorem alloc_oom_atomic (heap : Heap) (layout : Layout) (heap2 : Heap)
    (hchain : List.Chain' holeRel heap.holes) (hreal : ∀ h ∈ heap.holes, realHole h)
    (hoom : HeapAllocator.alloc heap layout = .oom heap2) :
    heap2 = heap ∧
    ∀ layout2, (∃ k, k < 64 ∧ layout2.align = 2 ^ k) → layout2.size ≤ 2 ^ 63 →
      (∃ H ∈ heap.holes, (split_hole H (normLayout layout2)).isSome) →
      ∃ a heap3, HeapAllocator.alloc heap2 layout2 = .ok a heap3 := by
  have heq : heap2 = heap := by
    unfold HeapAllocator.alloc at hoom
    cases hfs : Layout.from_size_align
        (if layout.size < min_size then min_size else layout.size) layout.align with
    | none =>
      rw [hfs] at hoom
      exact absurd hoom (by simp)
    | some l2 =>
      rw [hfs] at hoom
      simp only [] at hoom
      cases hla : HoleList.alloc heap.holes l2 with
      | ok a2 holes2 =>
        rw [hla] at hoom
        exact absurd hoom (by simp)
      | oom =>
        rw [hla] at hoom
        simp only [HeapAllocResult.oom.injEq] at hoom
        exact hoom.symm
      | fatal =>
        rw [hla] at hoom
        exact absurd hoom (by simp)
  subst heq
  refine ⟨rfl, ?_⟩
  intro layout2 hp hsz hfits
  obtain ⟨k, hk, halign⟩ := hp
  have hms : min_size = 16 := rfl
  have hk2 : (2 : Nat) ^ k ≤ 2 ^ 63 := Nat.pow_le_pow_right (by norm_num) (by omega)
  have htrue : is_power_of_two layout2.align = true := by
    rw [halign]
    exact is_power_of_two_two_pow k
  have hfs2 : Layout.from_size_align
      (if layout2.size < min_size then min_size else layout2.size) layout2.align =
      some ⟨if layout2.size < min_size then min_size else layout2.size, layout2.align⟩ := by
    unfold Layout.from_size_align
    rw [if_neg (by simp [htrue]), if_neg (by split <;> omega)]
  rw [normLayout_eq] at hfits
  obtain ⟨a, holes3, hok⟩ :=
    @HoleList.alloc_fits_ok _ ⟨if layout2.size < min_size then min_size
        else layout2.size, layout2.align⟩ k
      hchain hreal hk halign (by simp only [layout_size_mk]; split <;> omega)
      (by simp only [layout_size_mk]; split <;> omega) hfits
  refine ⟨a, { heap2 with holes := holes3 }, ?_⟩
  unfold HeapAllocator.alloc
  rw [hfs2]
  simp only []
  rw [hok]

/-- Witness for C6: a heap whose single 32-byte hole cannot serve a 64-byte
request, after which a 16-byte request still succeeds. -/
theorem alloc_oom_atomic_witness :
    ∃ a heap3, HeapAllocator.alloc (⟨4096, 4096, [⟨4096, 32⟩]⟩ : Heap) ⟨16, 8⟩ =
      .ok a heap3 :=
  (alloc_oom_atomic ⟨4096, 4096, [⟨4096, 32⟩]⟩ ⟨64, 8⟩ ⟨4096, 4096, [⟨4096, 32⟩]⟩
      (List.chain'_singleton _) (by decide) (by decide)).2
    ⟨16, 8⟩ ⟨3, by decide, rfl⟩ (by decide) (by decide)

/-- Claim C1 (evaluation at the failing input): on a fresh 4 KiB heap at
`0x1000`, the request of `heap.size - 8 = 4088` bytes leaves a tail of 8
bytes, with `0 < 8 < MIN_BLOCK`; the specification requires `split_hole` to
return `none` and the allocation to fail, but the source returns the
allocation with no back padding — the 8 tail bytes are dropped from the hole
list — and `alloc` succeeds at `0x1000` leaving an empty hole list. -/
theorem split_small_tail_leak :
    4096 + 4096 - (4096 + 4088) = 8 ∧ 0 < 8 ∧ 8 < min_size ∧
    split_hole ⟨4096, 4096⟩ ⟨4088, 8⟩ = some ⟨⟨4096, 4088⟩, none, none⟩ ∧
    HeapAllocator.alloc (HeapAllocator.init HeapAllocator.empty 4096 4096) ⟨4088, 8⟩ =
      .ok 4096 ⟨4096, 4096, []⟩ :=
  ⟨by decide, by decide, by decide, by decide, by decide⟩

/-- Claim C2 (evaluation at the failing input): one matched allocate/
deallocate pair on a fresh 4 KiB heap at `0x1000` with layout
`(size 4088, align 8)` returns to zero live allocations, yet the final hole
list is `[(0x1000, 4088)]`, not the original region `[(0x1000, 4096)]`: the
8 tail bytes leaked by `split_hole` (claim C1) are never returned. -/
theorem roundtrip_leak :
    HeapAllocator.alloc (HeapAllocator.init HeapAllocator.empty 4096 4096) ⟨4088, 8⟩ =
      .ok 4096 ⟨4096, 4096, []⟩ ∧
    HeapAllocator.dealloc ⟨4096, 4096, []⟩ 4096 ⟨4088, 8⟩ =
      some ⟨4096, 4096, [⟨4096, 4088⟩]⟩ ∧
    [(⟨4096, 4088⟩ : HoleInfo)] ≠ [⟨4096, 4096⟩] :=
  ⟨by decide, by decide, by decide⟩

/-- Claim C4 (evaluation at the failing input): a heap at bottom 16 of size
65536; allocate 16 bytes at address 16, free it (the hole list becomes the
single hole `(16, 65536)`), then free the same address again.  The claimed
guard `h.addr + h.size <= addr` is false at the visited hole `(16, 65536)`
(last conjunct), so the claim demands a fatal abort; but the source's guard
is the `usize` subtraction `hole_addr <= addr - hole.size`, which wraps for
`addr < hole.size`, so the second free returns normally and inserts an
overlapping hole `(16, 16)` inside the hole `(16, 65536)`. -/
theorem double_free_guard_wraps :
    HeapAllocator.alloc (HeapAllocator.init HeapAllocator.empty 16 65536) ⟨16, 8⟩ =
      .ok 16 ⟨16, 65536, [⟨32, 65520⟩]⟩ ∧
    HeapAllocator.dealloc ⟨16, 65536, [⟨32, 65520⟩]⟩ 16 ⟨16, 8⟩ =
      some ⟨16, 65536, [⟨16, 65536⟩]⟩ ∧
    HeapAllocator.dealloc ⟨16, 65536, [⟨16, 65536⟩]⟩ 16 ⟨16, 8⟩ =
      some ⟨16, 65536, [⟨16, 65536⟩, ⟨16, 16⟩]⟩ ∧
    ¬ (16 + 65536 ≤ 16) :=
  ⟨by decide, by decide, by decide, by decide⟩

/-- In the ordinary configuration, where the freed address is at least as
large as the containing hole's size, the double free is detected: the second
free of `0x1000` on the heap whose hole list is the single full hole
`(0x1000, 0x1000)` fails the assertion and panics. -/
theorem double_free_detected_when_no_underflow :
    HeapAllocator.dealloc ⟨4096, 4096, [⟨4096, 4096⟩]⟩ 4096 ⟨16, 8⟩ = none :=
  by decide

/-- Claim C5 counterexample: a second call to `init` on an already
initialized heap does not abort — it returns normally, silently
re-initializing the heap over the new region. -/
theorem init_twice_no_abort :
    HeapAllocator.init (HeapAllocator.init HeapAllocator.empty 4096 4096) 8192 4096 =
      ⟨8192, 4096, [⟨8192, 4096⟩]⟩ :=
  by decide

/-- Claim C5 amended: `init` performs no double-initialization detection;
whatever the previous state of the heap, it unconditionally overwrites
`bottom`, `size` and the hole list with a fresh single-hole state. -/
theorem init_overwrites (heap : Heap) (heap_bottom heap_size : Nat) :
    HeapAllocator.init heap heap_bottom heap_size =
      ⟨heap_bottom, heap_size, [⟨heap_bottom, heap_size⟩]⟩ := rfl

end OsRust
